import Mathlib

/-!
Verification of the hispanie_event_card repository.

The development shallowly embeds the two pieces of reusable logic of the
repository: the event merge-by-link utility
(`src/hipanie_event_card/find_common_events.py`, class `EventMerger`) and the
text-layout / card-composition logic
(`src/hipanie_event_card/event_card_generator.py`, class `EventCardGenerator`).

Python `dict[str, str]` records are embedded as association lists with unique
keys in insertion order; `dget` models `dict.get`, `dset` models
`dict.__setitem__` (overwrite in place when the key is present, append
otherwise). Python `str` maps to Lean `String` (a list of characters), and
`str.strip()` / `str.split()` are modelled character by character on the ASCII
whitespace class.
-/

/-- Python whitespace test on the ASCII range (the characters recognised by
`str.strip()` and no-argument `str.split()`). -/
def isWs (c : Char) : Bool :=
  c == ' ' || c == '\t' || c == '\n' || c == '\r' || c == '\x0b' || c == '\x0c'

/-- Characters of a string with leading and trailing whitespace removed,
modelling Python `str.strip()`. -/
def pyStripChars (cs : List Char) : List Char :=
  ((cs.dropWhile isWs).reverse.dropWhile isWs).reverse

/-- Python `str.strip()`. -/
def pyStrip (s : String) : String := ⟨pyStripChars s.data⟩

/-- `dget key m` models Python `m.get(key)` on a dict embedded as an
association list: the value of the first entry whose key matches. -/
def dget {β : Type} (key : String) : List (String × β) → Option β
  | [] => none
  | (k, v) :: rest => if k = key then some v else dget key rest

/-- `dgetD key dflt m` models Python `m.get(key, dflt)`. -/
def dgetD {β : Type} (key : String) (dflt : β) (m : List (String × β)) : β :=
  (dget key m).getD dflt

/-- `dset key val m` models Python `m[key] = val`: overwrite the entry in
place when the key is present, append a new entry otherwise. -/
def dset {β : Type} (key : String) (val : β) (m : List (String × β)) :
    List (String × β) :=
  if (dget key m).isSome then
    m.map (fun p => if p.1 = key then (key, val) else p)
  else m ++ [(key, val)]

/-- An event record: a Python dict from field names to string values. -/
abbrev Event := List (String × String)

/-- A link map: a Python dict from links to event records. -/
abbrev LinkMap := List (String × Event)

/-! ### `EventMerger` (find_common_events.py) -/

/-- The field subset overwritten by `EventMerger.merge_single_event`. -/
def fields_to_overwrite : List String :=
  ["title", "location", "description_short", "description_long", "cost", "type"]

/-- One iteration of the overwrite loop in `EventMerger.merge_single_event`:
`source_value = detailed_event.get(field, "").strip()`; overwrite when the
stripped value is truthy and not the sentinel `"not found"`. -/
def overwriteStep (detailed_event : Event) (merged_event : Event)
    (field : String) : Event :=
  let source_value := pyStrip (dgetD field "" detailed_event)
  if source_value ≠ "" ∧ source_value ≠ "not found" then
    dset field source_value merged_event
  else merged_event

/-- `EventMerger.merge_single_event`: copy the non-detailed record and run the
overwrite loop over `fields_to_overwrite`. -/
def merge_single_event (non_detailed_event detailed_event : Event) : Event :=
  fields_to_overwrite.foldl (overwriteStep detailed_event) non_detailed_event

/-- The link a record contributes to a link map, when valid:
`link := event.get("link", "").strip()` must be truthy and not `"not found"`
(the comprehension filter in `EventMerger.create_link_map`). -/
def validLink (event : Event) : Option String :=
  let link := pyStrip (dgetD "link" "" event)
  if link ≠ "" ∧ link ≠ "not found" then some link else none

/-- The stripped link of a record, `event.get("link", "").strip()`. -/
def strippedLink (event : Event) : String := pyStrip (dgetD "link" "" event)

/-- One step of the dict comprehension in `EventMerger.create_link_map`:
insert the record under its link when the link is valid, skip it otherwise. -/
def linkMapStep (m : LinkMap) (event : Event) : LinkMap :=
  match validLink event with
  | some link => dset link event m
  | none => m

/-- `EventMerger.create_link_map`: the dict comprehension
`{link: event for event in events if ...}` — later records with the same link
silently overwrite earlier ones. -/
def create_link_map (events : List Event) : LinkMap :=
  events.foldl linkMapStep []

/-- `EventMerger.find_common_links`: `set(non_detailed_link_map) &
set(detailed_link_map)`.  The Python set of common links is embedded as the
(duplicate-free) list of keys of the non-detailed map that also key the
detailed map. -/
def find_common_links (non_detailed_link_map detailed_link_map : LinkMap) :
    List String :=
  (non_detailed_link_map.map Prod.fst).filter
    (fun link => (dget link detailed_link_map).isSome)

/-- `EventMerger.merge_common_events`: merge the two records of every common
link. -/
def merge_common_events (non_detailed_link_map detailed_link_map : LinkMap)
    (common_links : List String) : List Event :=
  common_links.map
    (fun link =>
      merge_single_event ((dget link non_detailed_link_map).getD [])
        ((dget link detailed_link_map).getD []))

/-- `EventMerger.filter_non_common_events`: keep the non-detailed records whose
stripped link is not a common link. -/
def filter_non_common_events (events_non_detailed : List Event)
    (common_links : List String) : List Event :=
  events_non_detailed.filter
    (fun event => !(common_links.contains (strippedLink event)))

/-! ### `EventMerger.sort_events_by_date` (C7)

The JSON values of an event record are dynamically typed in Python; the sort
key `x.get("start_dt", "")` can therefore mix strings and numbers across
records.  `JValue` embeds the two relevant runtime types.  Python's `<`
compares two strings lexicographically by code point (embedded as the
lexicographic order on the character lists) and two ints numerically, and
raises `TypeError` on a mixed pair — embedded as `ltJ` returning `none`.
`sorted(events, key=...)` is a stable ascending sort that raises exactly when
it compares an incomparable pair of keys, which over this value domain happens
exactly when keys of both runtime types are present; the surrounding
`try/except` then returns the input list unchanged.  The stable sort itself is
embedded as a stable insertion sort. -/

inductive JValue where
  | s (v : String)
  | n (v : Int)
deriving DecidableEq

/-- An event record with dynamically typed values. -/
abbrev JEvent := List (String × JValue)

/-- Python `<` on two JSON values: `some` of the comparison for two values of
the same type, `none` (a `TypeError`) for a mixed pair. -/
def ltJ : JValue → JValue → Option Bool
  | .s a, .s b => some (decide (a.data < b.data))
  | .n a, .n b => some (decide (a < b))
  | _, _ => none

/-- The sort key `lambda x: x.get("start_dt", "")`. -/
def startKey (event : JEvent) : JValue := (dget "start_dt" event).getD (.s "")

/-- The element order induced by the sort key (false on incomparable pairs,
which the guarded sort never compares). -/
def keyLt (x y : JEvent) : Bool := (ltJ (startKey x) (startKey y)).getD false

/-- Insert into a sorted list, after every element not greater than the new
one (stable insertion). -/
def insort {α : Type} (lt : α → α → Bool) (x : α) : List α → List α
  | [] => [x]
  | y :: ys => if lt y x then y :: insort lt x ys else x :: y :: ys

/-- Stable ascending insertion sort, the semantics of Python `sorted` with a
key function. -/
def stableSortBy {α : Type} (lt : α → α → Bool) : List α → List α
  | [] => []
  | x :: xs => insort lt x (stableSortBy lt xs)

/-- All start keys of the list are pairwise comparable — exactly the condition
under which `sorted` does not raise over this value domain. -/
def comparableKeys (events : List JEvent) : Bool :=
  (events.map startKey).all
    (fun a => (events.map startKey).all (fun b => (ltJ a b).isSome))

/-- `EventMerger.sort_events_by_date`:
`try: return sorted(events, key=lambda x: x.get("start_dt", ""))`
`except: return events`. -/
def sort_events_by_date (events : List JEvent) : List JEvent :=
  if comparableKeys events then stableSortBy keyLt events else events

/-! ### `EventCardGenerator` text layout (event_card_generator.py)

The font width measure `draw.textbbox(...)[2] - draw.textbbox(...)[0]` is
embedded as an arbitrary function `width : String → Nat`; real font measures
satisfy `WidthMono` (joining two pieces with a space never shrinks either
piece's measure). -/

/-- Auxiliary scanner for no-argument Python `str.split()`: split on runs of
whitespace, discarding empty fragments; `acc` holds the current word reversed. -/
def splitWsAux : List Char → List Char → List (List Char)
  | [], acc => if acc.isEmpty then [] else [acc.reverse]
  | c :: cs, acc =>
    if isWs c then
      if acc.isEmpty then splitWsAux cs [] else acc.reverse :: splitWsAux cs []
    else splitWsAux cs (c :: acc)

/-- Python `paragraph.split()`: the whitespace-separated words of a string. -/
def pyWords (s : String) : List String := (splitWsAux s.data []).map String.mk

/-- Python `text.split("\n")` on the character list. -/
def splitNl : List Char → List (List Char)
  | [] => [[]]
  | c :: cs =>
    if c = '\n' then [] :: splitNl cs
    else
      match splitNl cs with
      | [] => [[c]]
      | p :: ps => (c :: p) :: ps

/-- Python `"\n" in text`. -/
def hasNl (s : String) : Bool := s.data.any (fun c => c = '\n')

/-- `"\n".join(...)` on character lists. -/
def joinNl : List (List Char) → List Char
  | [] => []
  | [l] => l
  | l :: ls => l ++ '\n' :: joinNl ls

/-- `"\n".join(lines)`. -/
def joinLines (lines : List String) : String := ⟨joinNl (lines.map String.data)⟩

/-- `" ".join(words)`: how a wrapped line is assembled from words. -/
def sjoin : List String → String
  | [] => ""
  | [w] => w
  | w :: ws => w ++ " " ++ sjoin ws

/-- Python `not paragraph.strip()`. -/
def pyIsBlank (s : String) : Bool := pyStrip s = ""

/-- The word loop of `EventCardGenerator._wrap_paragraph`: greedily accumulate
words into `current_line`, close the line when the measured test line would
exceed `max_width`. -/
def wrapLoop (width : String → Nat) (max_width : Nat) :
    List String → String → List String → List String
  | [], current_line, lines =>
    if current_line = "" then lines else lines ++ [current_line]
  | word :: ws, current_line, lines =>
    let test_line := if current_line = "" then word else current_line ++ " " ++ word
    if width test_line ≤ max_width then wrapLoop width max_width ws test_line lines
    else if current_line = "" then wrapLoop width max_width ws word lines
    else wrapLoop width max_width ws word (lines ++ [current_line])

/-- `EventCardGenerator._wrap_paragraph`. -/
def wrap_paragraph (width : String → Nat) (max_width : Nat)
    (paragraph : String) : List String :=
  wrapLoop width max_width (pyWords paragraph) "" []

/-- `EventCardGenerator._wrap_text_with_newlines`: split into paragraphs on
`"\n"`; a blank paragraph contributes a single empty line, any other paragraph
its greedy wrapping. -/
def wrap_text_with_newlines (width : String → Nat) (max_width : Nat)
    (text : String) : List String :=
  (splitNl text.data).flatMap
    (fun p => if pyIsBlank ⟨p⟩ then [""] else wrap_paragraph width max_width ⟨p⟩)

/-- `EventCardGenerator.wrap_text`: dispatch on the presence of `"\n"`, then
truncate to `max_lines` (`self.max_description_lines`). -/
def wrap_text (width : String → Nat) (max_width max_lines : Nat)
    (text : String) : List String :=
  (if hasNl text then wrap_text_with_newlines width max_width text
   else wrap_paragraph width max_width text).take max_lines

/-- Monotonicity of a font width measure: joining two pieces with a space
never measures below either piece.  Every real text measure satisfies this. -/
def WidthMono (width : String → Nat) : Prop :=
  ∀ a b : String, width a ≤ width (a ++ " " ++ b) ∧ width b ≤ width (a ++ " " ++ b)

/-- A word as produced by `str.split()`: non-empty and free of whitespace. -/
def GoodWord (w : String) : Prop :=
  w ≠ "" ∧ ∀ c ∈ w.data, isWs c = false

/-- The shape of every non-empty line produced by the greedy wrap: a
space-join of words that either fits `max_width` or is a single word. -/
def IsLine (width : String → Nat) (max_width : Nat) (l : String) : Prop :=
  ∃ ws : List String, ws ≠ [] ∧ (∀ w ∈ ws, GoodWord w) ∧ l = sjoin ws ∧
    (width l ≤ max_width ∨ ∃ w, ws = [w])

/-! ### `EventCardGenerator.get_color` -/

/-- Does `needle` occur at the start of `hay`? -/
def startsWithChars : List Char → List Char → Bool
  | _, [] => true
  | [], _ :: _ => false
  | a :: as, b :: bs => a == b && startsWithChars as bs

/-- Substring occurrence on character lists. -/
def containsChars : List Char → List Char → Bool
  | [], needle => needle.isEmpty
  | c :: cs, needle => startsWithChars (c :: cs) needle || containsChars cs needle

/-- Python `needle in hay` on strings. -/
def strIn (needle hay : String) : Bool := containsChars hay.data needle.data

/-- Python `str.upper()`, character by character (ASCII letters). -/
def pyUpper (s : String) : String := ⟨s.data.map Char.toUpper⟩

/-- `EventCardGenerator.get_color`: the if/elif chain over weekday tokens of
the uppercased date string, with the orange default. -/
def get_color (date : String) : Nat × Nat × Nat :=
  let day := pyUpper date
  if ["LUNES", "LUNDI", "MONDAY"].any (fun d => strIn d day) then (255, 152, 0)
  else if ["MARTES", "MARDI", "TUESDAY"].any (fun d => strIn d day) then
    (33, 150, 243)
  else if ["MIERCOLES", "MERCREDI", "WEDNESDAY"].any (fun d => strIn d day) then
    (204, 153, 0)
  else if ["JUEVES", "JEUDI", "THURSDAY"].any (fun d => strIn d day) then
    (156, 39, 176)
  else if ["VIERNES", "VENDREDI", "FRIDAY"].any (fun d => strIn d day) then
    (244, 67, 54)
  else if ["SABADO", "SAMEDI", "SATURDAY"].any (fun d => strIn d day) then
    (76, 175, 80)
  else if ["DOMINGO", "DIMANCHE", "SUNDAY"].any (fun d => strIn d day) then
    (0, 150, 136)
  else (255, 152, 0)

/-- The weekday token table in Monday-to-Sunday iteration order. -/
def weekday_tokens : List (List String) :=
  [["LUNES", "LUNDI", "MONDAY"], ["MARTES", "MARDI", "TUESDAY"],
   ["MIERCOLES", "MERCREDI", "WEDNESDAY"], ["JUEVES", "JEUDI", "THURSDAY"],
   ["VIERNES", "VENDREDI", "FRIDAY"], ["SABADO", "SAMEDI", "SATURDAY"],
   ["DOMINGO", "DIMANCHE", "SUNDAY"]]

/-- The weekday colors in the same order. -/
def weekday_colors : List (Nat × Nat × Nat) :=
  [(255, 152, 0), (33, 150, 243), (204, 153, 0), (156, 39, 176),
   (244, 67, 54), (76, 175, 80), (0, 150, 136)]

/-- Does the uppercased date string contain a token of weekday `i`? -/
def dayMatch (date : String) (i : Nat) : Bool :=
  (weekday_tokens.getD i []).any (fun d => strIn d (pyUpper date))

/-! ### `EventCardGenerator` canvas cursor geometry -/

/-- The layout constants of `EventCardGenerator.__init__` used by the
cursor-returning drawing operations. -/
structure CardConfig where
  card_width : Nat
  margin : Nat
  left_margin : Nat
  right_margin : Nat
  banner_angle_offset : Nat
  banner_height : Nat
  line_spacing : Nat
  section_spacing : Nat
  max_description_lines : Nat

/-- The constants assigned in `EventCardGenerator.__init__`: width 1080,
margins 40, banner angle offset 20, banner height 90, line spacing 40,
section spacing 80, at most 4 description lines. -/
def defaultConfig : CardConfig := ⟨1080, 40, 40, 40, 20, 90, 40, 80, 4⟩

/-- Python `section_spacing or self.section_spacing` for an optional `int`
keyword argument: `None` and `0` are falsy and select the default. -/
def orDefaultNat (v : Option Nat) (dflt : Nat) : Nat :=
  match v with
  | none => dflt
  | some n => if n = 0 then dflt else n

/-- The y-coordinate returned by `EventCardGenerator.draw_banner`:
`banner_start_y + self.banner_height + self.banner_angle_offset + 30`. -/
def draw_banner_y (cfg : CardConfig) (banner_start_y : Nat) : Nat :=
  banner_start_y + cfg.banner_height + cfg.banner_angle_offset + 30

/-- The y-coordinate returned by `EventCardGenerator.split_text`:
`y_position + len(lines) * self.line_spacing +
int((section_spacing or self.section_spacing) / 2)`, where `lines` is the
wrapped text. -/
def split_text_y (cfg : CardConfig) (width : String → Nat) (text : String)
    (y_position : Nat) (section_spacing : Option Nat) : Nat :=
  y_position +
    (wrap_text width (cfg.card_width - cfg.left_margin - cfg.right_margin)
        cfg.max_description_lines text).length * cfg.line_spacing +
    orDefaultNat section_spacing cfg.section_spacing / 2

/-- The y-coordinate returned by `EventCardGenerator.add_event_info`: with
`split_text=True` it delegates to `split_text` (without forwarding
`section_spacing`), otherwise it returns
`y_position + (section_spacing or self.section_spacing)`. -/
def add_event_info_y (cfg : CardConfig) (width : String → Nat) (text : String)
    (y_position : Nat) (section_spacing : Option Nat) (split_text : Bool) :
    Nat :=
  if split_text then split_text_y cfg width text y_position none
  else y_position + orDefaultNat section_spacing cfg.section_spacing

/-- The y-coordinate returned by `EventCardGenerator.add_separator_line`:
`y_position + 30`. -/
def add_separator_line_y (y_position : Nat) : Nat := y_position + 30

/-! ### Association-list lemmas -/

theorem dget_nil {β : Type} (key : String) : dget (β := β) key [] = none := rfl

theorem dget_cons {β : Type} (key k : String) (v : β) (rest : List (String × β)) :
    dget key ((k, v) :: rest) = if k = key then some v else dget key rest := rfl

theorem dget_map_overwrite {β : Type} (key : String) (val : β)
    (m : List (String × β)) (h : (dget key m).isSome) :
    dget key (m.map fun p => if p.1 = key then (key, val) else p) = some val := by
  induction m with
  | nil => simp [dget] at h
  | cons p rest ih =>
    obtain ⟨k, v⟩ := p
    by_cases hk : k = key
    · subst hk
      simp only [List.map_cons]
      rw [if_pos trivial, dget_cons, if_pos rfl]
    · simp only [List.map_cons]
      rw [if_neg hk]
      rw [dget_cons, if_neg hk]
      rw [dget_cons, if_neg hk] at h
      exact ih h

theorem dget_append_self {β : Type} (key : String) (val : β)
    (m : List (String × β)) (h : dget key m = none) :
    dget key (m ++ [(key, val)]) = some val := by
  induction m with
  | nil => simp [dget]
  | cons p rest ih =>
    obtain ⟨k, v⟩ := p
    rw [dget_cons] at h
    by_cases hk : k = key
    · rw [if_pos hk] at h; exact absurd h (by simp)
    · rw [if_neg hk] at h
      simp only [List.cons_append]
      rw [dget_cons, if_neg hk]
      exact ih h

theorem dget_dset_self {β : Type} (key : String) (val : β)
    (m : List (String × β)) : dget key (dset key val m) = some val := by
  unfold dset
  by_cases h : (dget key m).isSome
  · rw [if_pos h]; exact dget_map_overwrite key val m h
  · rw [if_neg h]
    exact dget_append_self key val m (by
      cases hv : dget key m
      · rfl
      · exact absurd (by simp [hv]) h)

theorem dget_dset_ne {β : Type} (f key : String) (val : β)
    (m : List (String × β)) (hne : f ≠ key) :
    dget f (dset key val m) = dget f m := by
  unfold dset
  by_cases h : (dget key m).isSome
  · rw [if_pos h]
    clear h
    induction m with
    | nil => rfl
    | cons p rest ih =>
      obtain ⟨k, v⟩ := p
      by_cases hk : k = key
      · subst hk
        simp only [List.map_cons]
        rw [if_pos trivial]
        rw [dget_cons, dget_cons,
          if_neg (fun hh : k = f => hne (Eq.symm hh)),
          if_neg (fun hh : k = f => hne (Eq.symm hh))]
        exact ih
      · simp only [List.map_cons, if_neg hk]
        rw [dget_cons, dget_cons]
        by_cases hf : k = f
        · rw [if_pos hf, if_pos hf]
        · rw [if_neg hf, if_neg hf]; exact ih
  · rw [if_neg h]
    clear h
    induction m with
    | nil =>
      simp only [List.nil_append]
      rw [dget_cons, if_neg (fun hh : key = f => hne (Eq.symm hh))]
    | cons p rest ih =>
      obtain ⟨k, v⟩ := p
      simp only [List.cons_append]
      rw [dget_cons, dget_cons]
      by_cases hf : k = f
      · rw [if_pos hf, if_pos hf]
      · rw [if_neg hf, if_neg hf]; exact ih

/-! ### Characterising the overwrite loop -/

theorem foldl_overwriteStep_notmem (d : Event) (f : String) :
    ∀ (fs : List String) (m : Event), f ∉ fs →
      dget f (fs.foldl (overwriteStep d) m) = dget f m := by
  intro fs
  induction fs with
  | nil => intro m _; rfl
  | cons g rest ih =>
    intro m hf
    have hfg : f ≠ g := fun h => hf (h ▸ List.mem_cons_self g rest)
    have hfr : f ∉ rest := fun h => hf (List.mem_cons_of_mem g h)
    rw [List.foldl_cons, ih _ hfr]
    unfold overwriteStep
    by_cases hc : pyStrip (dgetD g "" d) ≠ "" ∧ pyStrip (dgetD g "" d) ≠ "not found"
    · rw [if_pos hc]; exact dget_dset_ne f g _ m hfg
    · rw [if_neg hc]

theorem foldl_overwriteStep_mem (d : Event) (f : String) :
    ∀ (fs : List String) (m : Event), f ∈ fs → fs.Nodup →
      dget f (fs.foldl (overwriteStep d) m) =
        (if pyStrip (dgetD f "" d) ≠ "" ∧ pyStrip (dgetD f "" d) ≠ "not found"
         then some (pyStrip (dgetD f "" d)) else dget f m) := by
  intro fs
  induction fs with
  | nil => intro m hf _; exact absurd hf (List.not_mem_nil f)
  | cons g rest ih =>
    intro m hf hnd
    rw [List.nodup_cons] at hnd
    rcases List.mem_cons.mp hf with hfg | hfr
    · subst hfg
      rw [List.foldl_cons, foldl_overwriteStep_notmem d f rest _ hnd.1]
      unfold overwriteStep
      by_cases hc : pyStrip (dgetD f "" d) ≠ "" ∧ pyStrip (dgetD f "" d) ≠ "not found"
      · rw [if_pos hc, if_pos hc]; exact dget_dset_self f _ m
      · rw [if_neg hc, if_neg hc]
    · rw [List.foldl_cons, ih _ hfr hnd.2]
      by_cases hc : pyStrip (dgetD f "" d) ≠ "" ∧ pyStrip (dgetD f "" d) ≠ "not found"
      · rw [if_pos hc, if_pos hc]
      · rw [if_neg hc, if_neg hc]
        unfold overwriteStep
        by_cases hg : pyStrip (dgetD g "" d) ≠ "" ∧ pyStrip (dgetD g "" d) ≠ "not found"
        · rw [if_pos hg]
          by_cases hfg : f = g
          · subst hfg; exact absurd hg hc
          · exact dget_dset_ne f g _ m hfg
        · rw [if_neg hg]

/-- Full characterisation of one field of `merge_single_event` for a field of
the overwritable subset. -/
theorem merge_get_overwritten (nd d : Event) (f : String)
    (hf : f ∈ fields_to_overwrite) :
    dget f (merge_single_event nd d) =
      (if pyStrip (dgetD f "" d) ≠ "" ∧ pyStrip (dgetD f "" d) ≠ "not found"
       then some (pyStrip (dgetD f "" d)) else dget f nd) :=
  foldl_overwriteStep_mem d f fields_to_overwrite nd hf (by decide)

/-! ### Claims about `merge_single_event` -/

/-- **C1 counterexample.** A detailed `title` value of `"   "` is non-empty and
differs from the sentinel `"not found"`, yet the merged record keeps the
non-detailed title `"A"` instead of being overwritten — the overwrite test is
applied to the stripped value, not to the raw detailed value. -/
theorem merge_overwrite_raw_value_counterexample :
    dgetD "title" "" [("title", "   "), ("link", "L")] ≠ "" ∧
    dgetD "title" "" [("title", "   "), ("link", "L")] ≠ "not found" ∧
    dget "title"
        (merge_single_event [("title", "A"), ("link", "L")]
          [("title", "   "), ("link", "L")]) = some "A" := by
  decide

/-- **C1 (amended).** For every field of the overwritable subset, merging
overwrites the field with the whitespace-stripped detailed value exactly when
that stripped value is non-empty and not the sentinel `"not found"`; otherwise
the non-detailed record's value is retained.  In particular the claim's two
instances hold: detailed `title = "B"` overwrites `"A"`, and detailed
`title = "not found"` retains `"A"`. -/
theorem merge_single_event_overwrite (nd d : Event) (f : String)
    (hf : f ∈ fields_to_overwrite) :
    dget f (merge_single_event nd d) =
      (if pyStrip (dgetD f "" d) ≠ "" ∧ pyStrip (dgetD f "" d) ≠ "not found"
       then some (pyStrip (dgetD f "" d)) else dget f nd) :=
  merge_get_overwritten nd d f hf

/-- **C1 witness.** The claim's own instances, obtained from
`merge_single_event_overwrite`: with detailed title `"B"` the merged title is
`"B"`; with detailed title `"not found"` the merged title stays `"A"`. -/
theorem merge_single_event_overwrite_witness :
    dget "title"
        (merge_single_event [("title", "A"), ("link", "L")]
          [("title", "B"), ("link", "L")]) = some "B" ∧
    dget "title"
        (merge_single_event [("title", "A"), ("link", "L")]
          [("title", "not found"), ("link", "L")]) = some "A" := by
  constructor
  · rw [merge_single_event_overwrite [("title", "A"), ("link", "L")]
      [("title", "B"), ("link", "L")] "title" (by decide)]
    decide
  · rw [merge_single_event_overwrite [("title", "A"), ("link", "L")]
      [("title", "not found"), ("link", "L")] "title" (by decide)]
    decide

/-- **C6.** Merging changes only the fixed field subset: for every field
outside `fields_to_overwrite` — in particular `image`, `date`, `link` and
`start_dt` — the merged record's value is the non-detailed record's value. -/
theorem merge_single_event_frame (nd d : Event) (f : String)
    (hf : f ∉ fields_to_overwrite) :
    dget f (merge_single_event nd d) = dget f nd :=
  foldl_overwriteStep_notmem d f fields_to_overwrite nd hf

/-- **C6 witness.** The `image`, `date`, `link` and `start_dt` fields of a
concrete merged record equal the non-detailed record's values even though the
detailed record disagrees on all of them. -/
theorem merge_single_event_frame_witness :
    dget "image"
        (merge_single_event
          [("image", "i.png"), ("date", "Friday"), ("link", "L"),
            ("start_dt", "2024-01-01"), ("title", "A")]
          [("image", "other.png"), ("date", "Sunday"), ("link", "M"),
            ("start_dt", "2099-12-31"), ("title", "B")]) = some "i.png" ∧
    dget "date"
        (merge_single_event
          [("image", "i.png"), ("date", "Friday"), ("link", "L"),
            ("start_dt", "2024-01-01"), ("title", "A")]
          [("image", "other.png"), ("date", "Sunday"), ("link", "M"),
            ("start_dt", "2099-12-31"), ("title", "B")]) = some "Friday" ∧
    dget "link"
        (merge_single_event
          [("image", "i.png"), ("date", "Friday"), ("link", "L"),
            ("start_dt", "2024-01-01"), ("title", "A")]
          [("image", "other.png"), ("date", "Sunday"), ("link", "M"),
            ("start_dt", "2099-12-31"), ("title", "B")]) = some "L" ∧
    dget "start_dt"
        (merge_single_event
          [("image", "i.png"), ("date", "Friday"), ("link", "L"),
            ("start_dt", "2024-01-01"), ("title", "A")]
          [("image", "other.png"), ("date", "Sunday"), ("link", "M"),
            ("start_dt", "2099-12-31"), ("title", "B")]) = some "2024-01-01" := by
  refine ⟨?_, ?_, ?_, ?_⟩
  · rw [merge_single_event_frame _ _ "image" (by decide)]; decide
  · rw [merge_single_event_frame _ _ "date" (by decide)]; decide
  · rw [merge_single_event_frame _ _ "link" (by decide)]; decide
  · rw [merge_single_event_frame _ _ "start_dt" (by decide)]; decide

/-- **C10.** The value written into the merged record is always the detailed
value stripped of leading and trailing whitespace, and a detailed value that is
whitespace-only, or equals `"not found"` after stripping, does not overwrite
the non-detailed value. -/
theorem merge_strips_overwritten_values (nd d : Event) (f : String)
    (hf : f ∈ fields_to_overwrite) :
    (pyStrip (dgetD f "" d) ≠ "" → pyStrip (dgetD f "" d) ≠ "not found" →
       dget f (merge_single_event nd d) = some (pyStrip (dgetD f "" d))) ∧
    (pyStrip (dgetD f "" d) = "" →
       dget f (merge_single_event nd d) = dget f nd) ∧
    (pyStrip (dgetD f "" d) = "not found" →
       dget f (merge_single_event nd d) = dget f nd) := by
  refine ⟨fun h1 h2 => ?_, fun h1 => ?_, fun h1 => ?_⟩
  · rw [merge_get_overwritten nd d f hf, if_pos ⟨h1, h2⟩]
  · rw [merge_get_overwritten nd d f hf, if_neg (fun hc => hc.1 h1)]
  · rw [merge_get_overwritten nd d f hf, if_neg (fun hc => hc.2 h1)]

/-- **C10 witness.** A detailed `cost` value `"  12€  "` is written stripped as
`"12€"`, a whitespace-only `location` does not overwrite, and a
`"  not found "` title (sentinel after stripping) does not overwrite. -/
theorem merge_strips_overwritten_values_witness :
    dget "cost"
        (merge_single_event [("cost", "old"), ("link", "L")]
          [("cost", "  12€  "), ("link", "L")]) = some "12€" ∧
    dget "location"
        (merge_single_event [("location", "Paris"), ("link", "L")]
          [("location", "   "), ("link", "L")]) = some "Paris" ∧
    dget "title"
        (merge_single_event [("title", "A"), ("link", "L")]
          [("title", "  not found "), ("link", "L")]) = some "A" := by
  refine ⟨?_, ?_, ?_⟩
  · rw [(merge_strips_overwritten_values [("cost", "old"), ("link", "L")]
        [("cost", "  12€  "), ("link", "L")] "cost" (by decide)).1
        (by decide) (by decide)]
    decide
  · rw [(merge_strips_overwritten_values [("location", "Paris"), ("link", "L")]
        [("location", "   "), ("link", "L")] "location" (by decide)).2.1
        (by decide)]
    decide
  · rw [(merge_strips_overwritten_values [("title", "A"), ("link", "L")]
        [("title", "  not found "), ("link", "L")] "title" (by decide)).2.2
        (by decide)]
    decide

/-! ### Link-map lemmas and the merge partition (C2) -/

theorem validLink_isSome_iff (event : Event) :
    (validLink event).isSome = true ↔
      strippedLink event ≠ "" ∧ strippedLink event ≠ "not found" := by
  unfold validLink strippedLink
  by_cases hc : pyStrip (dgetD "link" "" event) ≠ "" ∧
      pyStrip (dgetD "link" "" event) ≠ "not found"
  · simp only [if_pos hc]
    exact ⟨fun _ => hc, fun _ => rfl⟩
  · simp only [if_neg hc]
    exact ⟨fun h => by simp at h, fun h => absurd h hc⟩

theorem validLink_eq_some (event : Event)
    (h : strippedLink event ≠ "" ∧ strippedLink event ≠ "not found") :
    validLink event = some (strippedLink event) := by
  unfold strippedLink at h
  show (if pyStrip (dgetD "link" "" event) ≠ "" ∧
        pyStrip (dgetD "link" "" event) ≠ "not found"
      then some (pyStrip (dgetD "link" "" event)) else none) =
    some (pyStrip (dgetD "link" "" event))
  rw [if_pos h]

theorem dget_eq_none_iff {β : Type} (key : String) (m : List (String × β)) :
    dget key m = none ↔ key ∉ m.map Prod.fst := by
  induction m with
  | nil => simp [dget_nil]
  | cons p rest ih =>
    obtain ⟨k, v⟩ := p
    rw [dget_cons]
    by_cases hk : k = key
    · subst hk
      simp
    · rw [if_neg hk]
      simp only [List.map_cons, List.mem_cons]
      rw [ih]
      constructor
      · rintro h (h1 | h2)
        · exact hk h1.symm
        · exact h h2
      · intro h hm
        exact h (Or.inr hm)

theorem dset_absent {β : Type} (key : String) (val : β)
    (m : List (String × β)) (h : dget key m = none) :
    dset key val m = m ++ [(key, val)] := by
  unfold dset
  rw [if_neg (by rw [h]; simp)]

theorem create_link_map_aux (events : List Event) :
    ∀ m : LinkMap,
      (∀ e ∈ events, strippedLink e ≠ "" ∧ strippedLink e ≠ "not found") →
      (m.map Prod.fst ++ events.map strippedLink).Nodup →
      events.foldl linkMapStep m =
        m ++ events.map (fun e => (strippedLink e, e)) := by
  induction events with
  | nil => intro m _ _; simp
  | cons e rest ih =>
    intro m hvalid hnodup
    have hv := hvalid e (List.mem_cons_self e rest)
    have hstep : linkMapStep m e = m ++ [(strippedLink e, e)] := by
      unfold linkMapStep
      rw [validLink_eq_some e hv]
      refine dset_absent _ _ _ ((dget_eq_none_iff _ _).mpr ?_)
      rw [List.nodup_append] at hnodup
      intro hmem
      exact hnodup.2.2 hmem (by simp)
    rw [List.foldl_cons, hstep, ih (m ++ [(strippedLink e, e)])
      (fun x hx => hvalid x (List.mem_cons_of_mem e hx))
      (by
        rw [List.map_append]
        rw [show ((m.map Prod.fst ++ [(strippedLink e, e)].map Prod.fst) ++
            rest.map strippedLink) =
            m.map Prod.fst ++ (strippedLink e :: rest.map strippedLink) by
          rw [List.append_assoc]; rfl]
        simpa using hnodup)]
    rw [List.append_assoc]
    rfl

/-- Under the C2 hypotheses the link map lists exactly the input records, keyed
by their stripped links, in order. -/
theorem create_link_map_eq (events : List Event)
    (hvalid : ∀ e ∈ events, strippedLink e ≠ "" ∧ strippedLink e ≠ "not found")
    (hnodup : (events.map strippedLink).Nodup) :
    create_link_map events = events.map (fun e => (strippedLink e, e)) := by
  unfold create_link_map
  rw [create_link_map_aux events [] hvalid (by simpa using hnodup)]
  simp

/-- **C2.** When every non-detailed record carries a valid (non-empty,
non-sentinel) stripped link that is unique within the non-detailed list, the
merge partitions the non-detailed input: merged records plus residual records
count up to the non-detailed input count. -/
theorem merge_partition_length (nd d : List Event)
    (hvalid : ∀ e ∈ nd, strippedLink e ≠ "" ∧ strippedLink e ≠ "not found")
    (hnodup : (nd.map strippedLink).Nodup) :
    (merge_common_events (create_link_map nd) (create_link_map d)
        (find_common_links (create_link_map nd) (create_link_map d))).length +
      (filter_non_common_events nd
        (find_common_links (create_link_map nd) (create_link_map d))).length =
      nd.length := by
  set dm := create_link_map d with hdm
  set q : String → Bool := fun link => (dget link dm).isSome with hq
  have hclm := create_link_map_eq nd hvalid hnodup
  have hkeys : (create_link_map nd).map Prod.fst = nd.map strippedLink := by
    rw [hclm, List.map_map]
    rfl
  have hcommon : find_common_links (create_link_map nd) dm =
      (nd.map strippedLink).filter q := by
    unfold find_common_links
    rw [hkeys]
  have hmerged : (merge_common_events (create_link_map nd) dm
      (find_common_links (create_link_map nd) dm)).length =
      ((nd.map strippedLink).filter q).length := by
    unfold merge_common_events
    rw [List.length_map, hcommon]
  have hfilter : ((nd.map strippedLink).filter q).length =
      (nd.filter (fun e => q (strippedLink e))).length := by
    rw [List.filter_map, List.length_map]
    rfl
  have hresidual : filter_non_common_events nd
      (find_common_links (create_link_map nd) dm) =
      nd.filter (fun e => !(q (strippedLink e))) := by
    unfold filter_non_common_events
    refine List.filter_congr ?_
    intro e he
    have : (find_common_links (create_link_map nd) dm).contains
        (strippedLink e) = q (strippedLink e) := by
      by_cases hmem : strippedLink e ∈ (nd.map strippedLink).filter q
      · have hqe : q (strippedLink e) = true := (List.mem_filter.mp hmem).2
        rw [hqe, hcommon]
        exact List.elem_iff.mpr hmem
      · have hqe : q (strippedLink e) = false := by
          by_cases hb : q (strippedLink e)
          · exact absurd (List.mem_filter.mpr
              ⟨List.mem_map_of_mem strippedLink he, hb⟩) hmem
          · exact Bool.eq_false_iff.mpr hb
        rw [hqe, hcommon]
        by_cases hc : ((nd.map strippedLink).filter q).contains (strippedLink e)
        · exact absurd (List.elem_iff.mp hc) hmem
        · exact Bool.eq_false_iff.mpr hc
    rw [this]
  rw [hmerged, hfilter, hresidual]
  exact (List.length_eq_length_filter_add (fun e => q (strippedLink e))).symm

/-- **C2 witness.** A concrete pair of lists: two valid uniquely-linked
non-detailed records, one of which is common with the detailed list; the merge
yields one merged and one residual record, 1 + 1 = 2. -/
theorem merge_partition_length_witness :
    (merge_common_events
        (create_link_map [[("link", "a"), ("title", "olda")],
          [("link", "b"), ("title", "oldb")]])
        (create_link_map [[("link", "a"), ("title", "newa")]])
        (find_common_links
          (create_link_map [[("link", "a"), ("title", "olda")],
            [("link", "b"), ("title", "oldb")]])
          (create_link_map [[("link", "a"), ("title", "newa")]]))).length +
      (filter_non_common_events [[("link", "a"), ("title", "olda")],
          [("link", "b"), ("title", "oldb")]]
        (find_common_links
          (create_link_map [[("link", "a"), ("title", "olda")],
            [("link", "b"), ("title", "oldb")]])
          (create_link_map [[("link", "a"), ("title", "newa")]]))).length = 2 :=
  merge_partition_length
    [[("link", "a"), ("title", "olda")], [("link", "b"), ("title", "oldb")]]
    [[("link", "a"), ("title", "newa")]] (by decide) (by decide)

/-! ### Rerunning the merge on the residual list (C3) -/

theorem dget_isSome_iff_mem {β : Type} (key : String) (m : List (String × β)) :
    (dget key m).isSome = true ↔ key ∈ m.map Prod.fst := by
  constructor
  · intro h
    by_cases hk : key ∈ m.map Prod.fst
    · exact hk
    · rw [(dget_eq_none_iff key m).mpr hk] at h
      exact absurd h (by simp)
  · intro h
    cases hv : dget key m
    · exact absurd ((dget_eq_none_iff key m).mp hv) (by simpa using h)
    · rfl

theorem mem_keys_dset {β : Type} (k key : String) (val : β)
    (m : List (String × β)) :
    k ∈ (dset key val m).map Prod.fst ↔ k = key ∨ k ∈ m.map Prod.fst := by
  by_cases hk : k = key
  · subst hk
    simp only [true_or, iff_true]
    exact (dget_isSome_iff_mem k _).mp (by rw [dget_dset_self]; rfl)
  · rw [← dget_isSome_iff_mem, dget_dset_ne k key val m hk, dget_isSome_iff_mem]
    exact ⟨Or.inr, fun h => h.resolve_left hk⟩

theorem validLink_some_inv (event : Event) (l : String)
    (h : validLink event = some l) :
    l = strippedLink event ∧ strippedLink event ≠ "" ∧
      strippedLink event ≠ "not found" := by
  have h' : (if strippedLink event ≠ "" ∧ strippedLink event ≠ "not found"
      then some (strippedLink event) else none) = some l := h
  by_cases hc : strippedLink event ≠ "" ∧ strippedLink event ≠ "not found"
  · rw [if_pos hc] at h'
    exact ⟨(Option.some.injEq _ _ ▸ h').symm, hc⟩
  · rw [if_neg hc] at h'
    exact absurd h' (by simp)

theorem keys_foldl_mono (events : List Event) :
    ∀ (m : LinkMap) (k : String), k ∈ m.map Prod.fst →
      k ∈ (events.foldl linkMapStep m).map Prod.fst := by
  induction events with
  | nil => intro m k hk; exact hk
  | cons e rest ih =>
    intro m k hk
    rw [List.foldl_cons]
    refine ih _ k ?_
    unfold linkMapStep
    cases validLink e
    · exact hk
    · exact (mem_keys_dset _ _ _ _).mpr (Or.inr hk)

theorem mem_keys_foldl_of_valid (events : List Event) :
    ∀ (m : LinkMap) (e : Event) (l : String), e ∈ events →
      validLink e = some l →
      l ∈ (events.foldl linkMapStep m).map Prod.fst := by
  induction events with
  | nil => intro m e l he _; exact absurd he (List.not_mem_nil e)
  | cons e' rest ih =>
    intro m e l he hv
    rw [List.foldl_cons]
    rcases List.mem_cons.mp he with he1 | he2
    · subst he1
      refine keys_foldl_mono rest _ l ?_
      unfold linkMapStep
      rw [hv]
      exact (mem_keys_dset _ _ _ _).mpr (Or.inl rfl)
    · exact ih _ e l he2 hv

theorem mem_keys_foldl_inv (events : List Event) :
    ∀ (m : LinkMap) (l : String),
      l ∈ (events.foldl linkMapStep m).map Prod.fst →
      l ∈ m.map Prod.fst ∨ ∃ e ∈ events, validLink e = some l := by
  induction events with
  | nil => intro m l hl; exact Or.inl hl
  | cons e rest ih =>
    intro m l hl
    rw [List.foldl_cons] at hl
    rcases ih _ l hl with hm | ⟨e', he', hv'⟩
    · unfold linkMapStep at hm
      cases hve : validLink e with
      | none => rw [hve] at hm; exact Or.inl hm
      | some le =>
        rw [hve] at hm
        rcases (mem_keys_dset l le e m).mp hm with h1 | h2
        · exact Or.inr ⟨e, List.mem_cons_self e rest, h1 ▸ hve⟩
        · exact Or.inl h2
    · exact Or.inr ⟨e', List.mem_cons_of_mem e he', hv'⟩

/-- **C3.** Running the merge a second time with the same detailed list and the
first run's residual list as the non-detailed input produces no common links
and hence an empty merged set: no link of a residual record is common in the
second run. -/
theorem rerun_merge_empty (nd d : List Event) :
    find_common_links
        (create_link_map
          (filter_non_common_events nd
            (find_common_links (create_link_map nd) (create_link_map d))))
        (create_link_map d) = [] ∧
    merge_common_events
        (create_link_map
          (filter_non_common_events nd
            (find_common_links (create_link_map nd) (create_link_map d))))
        (create_link_map d)
        (find_common_links
          (create_link_map
            (filter_non_common_events nd
              (find_common_links (create_link_map nd) (create_link_map d))))
          (create_link_map d)) = [] := by
  have hempty : find_common_links
      (create_link_map
        (filter_non_common_events nd
          (find_common_links (create_link_map nd) (create_link_map d))))
      (create_link_map d) = [] := by
    unfold find_common_links
    rw [List.filter_eq_nil_iff]
    intro l hl hq
    rcases mem_keys_foldl_inv _ [] l hl with hnil | ⟨e, he, hv⟩
    · exact absurd hnil (by simp)
    · obtain ⟨hle, hvalid⟩ := validLink_some_inv e l hv
      have hmem := List.mem_filter.mp he
      have hcontains := hmem.2
      simp only [Bool.not_eq_eq_eq_not, Bool.not_true] at hcontains
      have hincommon : strippedLink e ∈
          find_common_links (create_link_map nd) (create_link_map d) := by
        unfold find_common_links
        refine List.mem_filter.mpr ⟨?_, ?_⟩
        · exact mem_keys_foldl_of_valid nd [] e (strippedLink e) hmem.1
            (hle ▸ hv)
        · exact hle ▸ hq
      unfold find_common_links at hincommon
      have htrue : (((create_link_map nd).map Prod.fst).filter
          (fun link => (dget link (create_link_map d)).isSome)).contains
            (strippedLink e) = true := List.elem_iff.mpr hincommon
      rw [htrue] at hcontains
      simp at hcontains
  refine ⟨hempty, ?_⟩
  rw [hempty]
  rfl

theorem ltJ_isSome_symm (a b : JValue) (h : (ltJ a b).isSome = true) :
    (ltJ b a).isSome = true := by
  cases a <;> cases b <;> simp [ltJ] at h ⊢

theorem ltJ_true_flip (a b : JValue) (h : ltJ a b = some true) :
    ltJ b a = some false := by
  cases a <;> cases b <;> simp [ltJ] at h ⊢
  · exact le_of_lt h
  · omega

theorem ltJ_false_trans (a b c : JValue) (h1 : ltJ b a = some false)
    (h2 : ltJ c b = some false) : ltJ c a = some false := by
  cases a <;> cases b <;> cases c <;> simp [ltJ] at h1 h2 ⊢
  · exact le_trans h1 h2
  · omega

theorem insort_perm {α : Type} (lt : α → α → Bool) (x : α) (l : List α) :
    (insort lt x l).Perm (x :: l) := by
  induction l with
  | nil => exact List.Perm.refl [x]
  | cons y ys ih =>
    unfold insort
    by_cases h : lt y x
    · rw [if_pos h]
      exact (ih.cons y).trans (List.Perm.swap x y ys)
    · rw [if_neg h]

theorem stableSortBy_perm {α : Type} (lt : α → α → Bool) (l : List α) :
    (stableSortBy lt l).Perm l := by
  induction l with
  | nil => exact List.Perm.refl []
  | cons x xs ih =>
    exact (insort_perm lt x (stableSortBy lt xs)).trans (ih.cons x)

theorem insort_pairwise (x : JEvent) (l : List JEvent)
    (hcmp : ∀ y ∈ l, (ltJ (startKey y) (startKey x)).isSome = true)
    (hl : l.Pairwise (fun a b => ltJ (startKey b) (startKey a) = some false)) :
    (insort keyLt x l).Pairwise
      (fun a b => ltJ (startKey b) (startKey a) = some false) := by
  induction l with
  | nil => simp [insort]
  | cons y ys ih =>
    rw [List.pairwise_cons] at hl
    have hsome := hcmp y (List.mem_cons_self y ys)
    unfold insort
    by_cases hlt : keyLt y x
    · rw [if_pos hlt]
      have hyx : ltJ (startKey y) (startKey x) = some true := by
        unfold keyLt at hlt
        cases hv : ltJ (startKey y) (startKey x) with
        | none => rw [hv] at hsome; exact absurd hsome (by simp)
        | some b => rw [hv] at hlt; simp at hlt; rw [hlt]
      rw [List.pairwise_cons]
      constructor
      · intro z hz
        rcases List.mem_cons.mp ((insort_perm keyLt x ys).mem_iff.mp hz)
          with hz1 | hz2
        · rw [hz1]
          exact ltJ_true_flip _ _ hyx
        · exact hl.1 z hz2
      · exact ih (fun z hz => hcmp z (List.mem_cons_of_mem y hz)) hl.2
    · rw [if_neg hlt]
      have hyx : ltJ (startKey y) (startKey x) = some false := by
        unfold keyLt at hlt
        cases hv : ltJ (startKey y) (startKey x) with
        | none => rw [hv] at hsome; exact absurd hsome (by simp)
        | some b =>
          rw [hv] at hlt
          simp at hlt
          rw [hlt]
      rw [List.pairwise_cons]
      constructor
      · intro z hz
        rcases List.mem_cons.mp hz with hz1 | hz2
        · rw [hz1]; exact hyx
        · exact ltJ_false_trans _ _ _ hyx (hl.1 z hz2)
      · rw [List.pairwise_cons]; exact hl
  
theorem stableSortBy_pairwise (l : List JEvent)
    (hcmp : ∀ a ∈ l, ∀ b ∈ l, (ltJ (startKey a) (startKey b)).isSome = true) :
    (stableSortBy keyLt l).Pairwise
      (fun a b => ltJ (startKey b) (startKey a) = some false) := by
  induction l with
  | nil => simp [stableSortBy]
  | cons x xs ih =>
    refine insort_pairwise x (stableSortBy keyLt xs) ?_ ?_
    · intro y hy
      have hyxs := (stableSortBy_perm keyLt xs).mem_iff.mp hy
      exact hcmp y (List.mem_cons_of_mem x hyxs) x (List.mem_cons_self x xs)
    · exact ih (fun a ha b hb =>
        hcmp a (List.mem_cons_of_mem x ha) b (List.mem_cons_of_mem x hb))

theorem comparableKeys_spec (events : List JEvent)
    (h : comparableKeys events = true) :
    ∀ a ∈ events, ∀ b ∈ events,
      (ltJ (startKey a) (startKey b)).isSome = true := by
  intro a ha b hb
  unfold comparableKeys at h
  rw [List.all_eq_true] at h
  have h1 := h (startKey a) (List.mem_map_of_mem startKey ha)
  rw [List.all_eq_true] at h1
  exact h1 (startKey b) (List.mem_map_of_mem startKey hb)

/-- **C7.** The guarded sort is total and non-fatal: it always returns a
permutation of the input; when all start keys are pairwise comparable (same
runtime type) the result is ordered ascending by `start_dt`; when a comparison
would fail (mixed runtime types, i.e. `sorted` raises `TypeError`) the
original order is returned unchanged. -/
theorem sort_events_by_date_spec (events : List JEvent) :
    (sort_events_by_date events).Perm events ∧
    (comparableKeys events = false → sort_events_by_date events = events) ∧
    (comparableKeys events = true →
      (sort_events_by_date events).Pairwise
        (fun x y => ltJ (startKey y) (startKey x) = some false)) := by
  refine ⟨?_, fun hf => ?_, fun ht => ?_⟩
  · unfold sort_events_by_date
    by_cases h : comparableKeys events
    · rw [if_pos h]; exact stableSortBy_perm keyLt events
    · rw [if_neg h]
  · unfold sort_events_by_date
    rw [hf]
    simp
  · unfold sort_events_by_date
    rw [ht]
    simp only [if_true]
    exact stableSortBy_pairwise events (comparableKeys_spec events ht)

/-- **C7 witness.** A mixed-type key pair (an int and a string `start_dt`) is
returned in the original order, and a comparable pair is returned sorted. -/
theorem sort_events_by_date_spec_witness :
    sort_events_by_date
        [[("start_dt", JValue.n 2)], [("start_dt", JValue.s "a")]] =
      [[("start_dt", JValue.n 2)], [("start_dt", JValue.s "a")]] ∧
    (sort_events_by_date
        [[("start_dt", JValue.s "b")], [("start_dt", JValue.s "a")]]).Pairwise
      (fun x y => ltJ (startKey y) (startKey x) = some false) :=
  ⟨(sort_events_by_date_spec
      [[("start_dt", JValue.n 2)], [("start_dt", JValue.s "a")]]).2.1
      (by decide),
   (sort_events_by_date_spec
      [[("start_dt", JValue.s "b")], [("start_dt", JValue.s "a")]]).2.2
      (by decide)⟩

/-! ### Banner color policy (C8) -/

theorem get_color_eq_ite (date : String) :
    get_color date =
      (if dayMatch date 0 then (255, 152, 0)
       else if dayMatch date 1 then (33, 150, 243)
       else if dayMatch date 2 then (204, 153, 0)
       else if dayMatch date 3 then (156, 39, 176)
       else if dayMatch date 4 then (244, 67, 54)
       else if dayMatch date 5 then (76, 175, 80)
       else if dayMatch date 6 then (0, 150, 136)
       else (255, 152, 0)) := rfl

/-- **C8.** The banner color policy is total with a default: `get_color`
always returns a triple; when no weekday token of any of the three locales
occurs in the (uppercased) date string it returns the default orange
`(255, 152, 0)`, and when one or more weekdays match, the first matching
weekday in Monday-to-Sunday iteration order determines the color. -/
theorem get_color_first_weekday (date : String) :
    ((∀ i, i < 7 → dayMatch date i = false) →
      get_color date = (255, 152, 0)) ∧
    (∀ i, i < 7 → dayMatch date i = true →
      (∀ j, j < i → dayMatch date j = false) →
      get_color date = weekday_colors.getD i (0, 0, 0)) := by
  constructor
  · intro h
    rw [get_color_eq_ite]
    simp [h 0 (by omega), h 1 (by omega), h 2 (by omega), h 3 (by omega),
      h 4 (by omega), h 5 (by omega), h 6 (by omega)]
  · intro i hi ht hj
    rw [get_color_eq_ite]
    interval_cases i
    · simp [ht, weekday_colors]
    · simp [hj 0 (by omega), ht, weekday_colors]
    · simp [hj 0 (by omega), hj 1 (by omega), ht, weekday_colors]
    · simp [hj 0 (by omega), hj 1 (by omega), hj 2 (by omega), ht,
        weekday_colors]
    · simp [hj 0 (by omega), hj 1 (by omega), hj 2 (by omega),
        hj 3 (by omega), ht, weekday_colors]
    · simp [hj 0 (by omega), hj 1 (by omega), hj 2 (by omega),
        hj 3 (by omega), hj 4 (by omega), ht, weekday_colors]
    · simp [hj 0 (by omega), hj 1 (by omega), hj 2 (by omega),
        hj 3 (by omega), hj 4 (by omega), hj 5 (by omega), ht,
        weekday_colors]

/-- **C8 witness.** `"SUNDAY TUESDAY"` contains both a Sunday and a Tuesday
token; Tuesday comes first in iteration order, so the color is the Tuesday
blue.  A string without any weekday token gets the default orange. -/
theorem get_color_first_weekday_witness :
    get_color "SUNDAY TUESDAY" = (33, 150, 243) ∧
    get_color "nothing here" = (255, 152, 0) :=
  ⟨(get_color_first_weekday "SUNDAY TUESDAY").2 1 (by omega) (by decide)
      (fun j hj => by interval_cases j <;> decide),
   (get_color_first_weekday "nothing here").1
      (fun i hi => by interval_cases i <;> decide)⟩

/-! ### Canvas cursor monotonicity (C9) -/

/-- **C9.** With the constants of `EventCardGenerator.__init__`, every
cursor-returning drawing operation — banner, text section (plain or wrapped),
separator line — returns a y-coordinate strictly greater than its input
y-coordinate, for every width measure, text, spacing argument and mode. -/
theorem cursor_monotone (width : String → Nat) (text : String) (y : Nat)
    (section_spacing : Option Nat) (split_text : Bool) :
    y < draw_banner_y defaultConfig y ∧
    y < add_event_info_y defaultConfig width text y section_spacing
          split_text ∧
    y < add_separator_line_y y := by
  refine ⟨?_, ?_, ?_⟩
  · show y < y + 90 + 20 + 30
    omega
  · unfold add_event_info_y
    by_cases hs : split_text
    · rw [if_pos hs]
      unfold split_text_y
      rw [show orDefaultNat none defaultConfig.section_spacing / 2 = 40
        from rfl]
      omega
    · rw [if_neg hs]
      have hpos : 0 < orDefaultNat section_spacing
          defaultConfig.section_spacing := by
        cases section_spacing with
        | none => decide
        | some n =>
          by_cases hn : n = 0
          · subst hn; decide
          · show 0 < if n = 0 then defaultConfig.section_spacing else n
            rw [if_neg hn]
            omega
      omega
  · show y < y + 30
    omega

/-! ### Greedy wrap: width bound (C4) -/

theorem splitWsAux_good (cs : List Char) :
    ∀ acc : List Char, (∀ c ∈ acc, isWs c = false) →
      ∀ g ∈ splitWsAux cs acc, g ≠ [] ∧ ∀ c ∈ g, isWs c = false := by
  induction cs with
  | nil =>
    intro acc hacc g hg
    unfold splitWsAux at hg
    by_cases he : acc.isEmpty
    · rw [if_pos he] at hg
      exact absurd hg (List.not_mem_nil g)
    · rw [if_neg he] at hg
      rw [List.mem_singleton] at hg
      subst hg
      refine ⟨fun hnil => he ?_, fun c hc => hacc c (List.mem_reverse.mp hc)⟩
      rw [List.isEmpty_iff, ← List.reverse_eq_nil_iff, hnil]
  | cons c cs ih =>
    intro acc hacc g hg
    unfold splitWsAux at hg
    by_cases hwc : isWs c
    · rw [if_pos hwc] at hg
      by_cases he : acc.isEmpty
      · rw [if_pos he] at hg
        exact ih [] (by simp) g hg
      · rw [if_neg he] at hg
        rcases List.mem_cons.mp hg with hg1 | hg2
        · subst hg1
          refine ⟨fun hnil => he ?_, fun x hx => hacc x (List.mem_reverse.mp hx)⟩
          rw [List.isEmpty_iff, ← List.reverse_eq_nil_iff, hnil]
        · exact ih [] (by simp) g hg2
    · rw [if_neg hwc] at hg
      refine ih (c :: acc) ?_ g hg
      intro x hx
      rcases List.mem_cons.mp hx with hx1 | hx2
      · subst hx1; exact Bool.eq_false_iff.mpr hwc
      · exact hacc x hx2

theorem pyWords_good (s : String) : ∀ w ∈ pyWords s, GoodWord w := by
  intro w hw
  unfold pyWords at hw
  rcases List.mem_map.mp hw with ⟨g, hg, hgw⟩
  obtain ⟨hne, hws⟩ := splitWsAux_good s.data [] (by simp) g hg
  subst hgw
  constructor
  · intro hempty
    exact hne (congrArg String.data hempty)
  · exact hws

theorem wrapLoop_sub (width : String → Nat) (max_width : Nat) :
    ∀ (ws : List String) (cur : String) (lines : List String) (l : String),
      l ∈ lines → l ∈ wrapLoop width max_width ws cur lines := by
  intro ws
  induction ws with
  | nil =>
    intro cur lines l hl
    unfold wrapLoop
    by_cases hc : cur = ""
    · rw [if_pos hc]; exact hl
    · rw [if_neg hc]; exact List.mem_append_left _ hl
  | cons w ws ih =>
    intro cur lines l hl
    unfold wrapLoop
    by_cases hfit : width (if cur = "" then w else cur ++ " " ++ w) ≤ max_width
    · rw [if_pos hfit]; exact ih _ _ l hl
    · rw [if_neg hfit]
      by_cases hc : cur = ""
      · rw [if_pos hc]; exact ih _ _ l hl
      · rw [if_neg hc]; exact ih _ _ l (List.mem_append_left _ hl)

theorem wrapLoop_bound (width : String → Nat) (max_width : Nat)
    (W : List String) :
    ∀ (ws : List String) (cur : String) (lines : List String),
      (∀ l ∈ lines, width l ≤ max_width ∨ l ∈ W) →
      (cur = "" ∨ width cur ≤ max_width ∨ cur ∈ W) →
      (∀ w ∈ ws, w ∈ W) →
      ∀ l ∈ wrapLoop width max_width ws cur lines,
        width l ≤ max_width ∨ l ∈ W := by
  intro ws
  induction ws with
  | nil =>
    intro cur lines hlines hcur _ l hl
    unfold wrapLoop at hl
    by_cases hc : cur = ""
    · rw [if_pos hc] at hl; exact hlines l hl
    · rw [if_neg hc] at hl
      rcases List.mem_append.mp hl with h1 | h2
      · exact hlines l h1
      · rw [List.mem_singleton.mp h2]
        exact hcur.resolve_left hc
  | cons w ws ih =>
    intro cur lines hlines hcur hws l hl
    have hwW : w ∈ W := hws w (List.mem_cons_self w ws)
    have hwsW : ∀ x ∈ ws, x ∈ W := fun x hx => hws x (List.mem_cons_of_mem w hx)
    unfold wrapLoop at hl
    by_cases hfit : width (if cur = "" then w else cur ++ " " ++ w) ≤ max_width
    · rw [if_pos hfit] at hl
      exact ih _ _ hlines (Or.inr (Or.inl hfit)) hwsW l hl
    · rw [if_neg hfit] at hl
      by_cases hc : cur = ""
      · rw [if_pos hc] at hl
        exact ih _ _ hlines (Or.inr (Or.inr hwW)) hwsW l hl
      · rw [if_neg hc] at hl
        refine ih _ _ ?_ (Or.inr (Or.inr hwW)) hwsW l hl
        intro x hx
        rcases List.mem_append.mp hx with h1 | h2
        · exact hlines x h1
        · rw [List.mem_singleton.mp h2]
          exact hcur.resolve_left hc

theorem wrapLoop_keeps_overlong_current (width : String → Nat)
    (max_width : Nat) (hmono : WidthMono width) :
    ∀ (ws : List String) (cur : String) (lines : List String),
      cur ≠ "" → max_width < width cur →
      cur ∈ wrapLoop width max_width ws cur lines := by
  intro ws
  induction ws with
  | nil =>
    intro cur lines hc _
    unfold wrapLoop
    rw [if_neg hc]
    exact List.mem_append_right _ (List.mem_singleton.mpr rfl)
  | cons w ws ih =>
    intro cur lines hc hover
    have hbig : ¬ width (cur ++ " " ++ w) ≤ max_width :=
      fun hle => absurd (lt_of_lt_of_le hover ((hmono cur w).1.trans hle))
        (lt_irrefl max_width)
    simp only [wrapLoop, if_neg hc, if_neg hbig]
    exact wrapLoop_sub width max_width ws w (lines ++ [cur]) cur
      (List.mem_append_right _ (List.mem_singleton.mpr rfl))

theorem wrapLoop_overlong (width : String → Nat) (max_width : Nat)
    (hmono : WidthMono width) :
    ∀ (ws : List String) (cur : String) (lines : List String) (w : String),
      w ∈ ws → w ≠ "" → max_width < width w →
      w ∈ wrapLoop width max_width ws cur lines := by
  intro ws
  induction ws with
  | nil =>
    intro cur lines w hw
    exact absurd hw (List.not_mem_nil w)
  | cons w' ws ih =>
    intro cur lines w hw hne hover
    rcases List.mem_cons.mp hw with hww | htail
    · subst hww
      by_cases hc : cur = ""
      · have hbig : ¬ width w ≤ max_width := fun hle =>
          absurd (lt_of_lt_of_le hover hle) (lt_irrefl max_width)
        simp only [wrapLoop, if_pos hc, if_neg hbig]
        exact wrapLoop_keeps_overlong_current width max_width hmono ws w
          lines hne hover
      · have hbig : ¬ width (cur ++ " " ++ w) ≤ max_width := fun hle =>
          absurd (lt_of_lt_of_le hover ((hmono cur w).2.trans hle))
            (lt_irrefl max_width)
        simp only [wrapLoop, if_neg hc, if_neg hbig]
        exact wrapLoop_keeps_overlong_current width max_width hmono ws w
          (lines ++ [cur]) hne hover
    · unfold wrapLoop
      by_cases hfit : width (if cur = "" then w' else cur ++ " " ++ w') ≤
          max_width
      · rw [if_pos hfit]; exact ih _ _ w htail hne hover
      · rw [if_neg hfit]
        by_cases hc : cur = ""
        · rw [if_pos hc]; exact ih _ _ w htail hne hover
        · rw [if_neg hc]; exact ih _ _ w htail hne hover

/-- The string length measure satisfies `WidthMono`. -/
theorem lengthMono : WidthMono String.length := by
  intro a b
  constructor <;> simp [String.length_append] <;> omega

/-- **C4.** Every line produced by the greedy word wrap either fits
`max_width` or is verbatim a single word of the paragraph (hence unsplit);
and a word wider than `max_width` is emitted as a line of its own. -/
theorem wrap_paragraph_width_bound (width : String → Nat)
    (hmono : WidthMono width) (max_width : Nat) (paragraph : String) :
    (∀ l ∈ wrap_paragraph width max_width paragraph,
      width l ≤ max_width ∨ l ∈ pyWords paragraph) ∧
    (∀ w ∈ pyWords paragraph, max_width < width w →
      w ∈ wrap_paragraph width max_width paragraph) := by
  constructor
  · intro l hl
    exact wrapLoop_bound width max_width (pyWords paragraph)
      (pyWords paragraph) "" [] (by simp) (Or.inl rfl) (fun w hw => hw) l hl
  · intro w hw hover
    exact wrapLoop_overlong width max_width hmono (pyWords paragraph) "" [] w
      hw (pyWords_good paragraph w hw).1 hover

/-- **C4 witness.** At `max_width = 5` under the character-count measure, the
overlong word `"extraordinary"` is emitted as its own line. -/
theorem wrap_paragraph_width_bound_witness :
    "extraordinary" ∈ wrap_paragraph String.length 5 "extraordinary ok" :=
  (wrap_paragraph_width_bound String.length lengthMono 5
    "extraordinary ok").2 "extraordinary" (by decide) (by decide)

/-! ### Wrap idempotence (C5): string plumbing -/

theorem sjoin_cons_cons (w v : String) (ws : List String) :
    sjoin (w :: v :: ws) = w ++ " " ++ sjoin (v :: ws) := rfl

theorem sjoin_glue (a b : String) (ws : List String) :
    sjoin ((a ++ " " ++ b) :: ws) = sjoin (a :: b :: ws) := by
  cases ws with
  | nil => rfl
  | cons v ws =>
    rw [sjoin_cons_cons, sjoin_cons_cons, sjoin_cons_cons]
    simp only [String.append_assoc]

theorem append_space_ne_empty (a b : String) : a ++ " " ++ b ≠ "" := by
  intro h
  have hd : (a ++ " " ++ b).data = a.data ++ (' ' :: b.data) := by
    show (a.data ++ [' ']) ++ b.data = a.data ++ (' ' :: b.data)
    rw [List.append_assoc]
    rfl
  rw [h] at hd
  exact absurd hd.symm (by simp)

theorem sjoin_cons_ne_empty (w : String) (ws : List String) (hw : w ≠ "") :
    sjoin (w :: ws) ≠ "" := by
  cases ws with
  | nil => exact hw
  | cons v ws =>
    rw [sjoin_cons_cons]
    exact append_space_ne_empty w (sjoin (v :: ws))

theorem sjoin_chars (ws : List String) :
    ∀ c ∈ (sjoin ws).data, c = ' ' ∨ ∃ w ∈ ws, c ∈ w.data := by
  induction ws with
  | nil => intro c hc; exact absurd hc (List.not_mem_nil c)
  | cons w ws ih =>
    intro c hc
    cases ws with
    | nil =>
      exact Or.inr ⟨w, List.mem_singleton.mpr rfl, hc⟩
    | cons v rest =>
      rw [sjoin_cons_cons] at hc
      have hd : (w ++ " " ++ sjoin (v :: rest)).data =
          w.data ++ (' ' :: (sjoin (v :: rest)).data) := by
        show (w.data ++ [' ']) ++ (sjoin (v :: rest)).data =
          w.data ++ (' ' :: (sjoin (v :: rest)).data)
        rw [List.append_assoc]
        rfl
      rw [hd] at hc
      rcases List.mem_append.mp hc with h1 | h2
      · exact Or.inr ⟨w, List.mem_cons_self w _, h1⟩
      · rcases List.mem_cons.mp h2 with h3 | h4
        · exact Or.inl h3
        · rcases ih c h4 with h5 | ⟨u, hu, hcu⟩
          · exact Or.inl h5
          · exact Or.inr ⟨u, List.mem_cons_of_mem w hu, hcu⟩

theorem mem_sjoin_chars (ws : List String) (w : String) (c : Char)
    (hw : w ∈ ws) (hc : c ∈ w.data) : c ∈ (sjoin ws).data := by
  induction ws with
  | nil => exact absurd hw (List.not_mem_nil w)
  | cons u us ih =>
    cases us with
    | nil =>
      rw [List.mem_singleton.mp hw] at hc
      exact hc
    | cons v rest =>
      rw [sjoin_cons_cons]
      have hd : (u ++ " " ++ sjoin (v :: rest)).data =
          u.data ++ (' ' :: (sjoin (v :: rest)).data) := by
        show (u.data ++ [' ']) ++ (sjoin (v :: rest)).data =
          u.data ++ (' ' :: (sjoin (v :: rest)).data)
        rw [List.append_assoc]
        rfl
      rw [hd]
      rcases List.mem_cons.mp hw with h1 | h2
      · exact List.mem_append_left _ (h1 ▸ hc)
      · exact List.mem_append_right _ (List.mem_cons_of_mem ' ' (ih h2))

theorem splitWsAux_nil_eq (acc : List Char) :
    splitWsAux [] acc = (if acc.isEmpty then [] else [acc.reverse]) := rfl

theorem splitWsAux_cons_eq (c : Char) (cs acc : List Char) :
    splitWsAux (c :: cs) acc =
      (if isWs c then
        (if acc.isEmpty then splitWsAux cs []
         else acc.reverse :: splitWsAux cs [])
       else splitWsAux cs (c :: acc)) := rfl

theorem splitWsAux_chain (wcs : List Char) :
    ∀ (cs acc : List Char), (∀ c ∈ wcs, isWs c = false) →
      splitWsAux (wcs ++ cs) acc = splitWsAux cs (wcs.reverse ++ acc) := by
  induction wcs with
  | nil => intro cs acc _; rfl
  | cons c wcs ih =>
    intro cs acc hws
    have hc : ¬ isWs c = true := by
      rw [hws c (List.mem_cons_self c wcs)]
      exact Bool.false_ne_true
    show splitWsAux (c :: (wcs ++ cs)) acc = _
    rw [splitWsAux_cons_eq, if_neg hc,
      ih cs (c :: acc) (fun x hx => hws x (List.mem_cons_of_mem c hx)),
      List.reverse_cons, List.append_assoc, List.singleton_append]

theorem splitWs_sjoin_data (ws : List String) (hne : ws ≠ [])
    (hgood : ∀ w ∈ ws, GoodWord w) :
    splitWsAux (sjoin ws).data [] = ws.map String.data := by
  induction ws with
  | nil => exact absurd rfl hne
  | cons w tail ih =>
    have hw := hgood w (List.mem_cons_self w tail)
    have hwdata : w.data ≠ [] := fun h => hw.1 (by
      cases w with
      | mk d => exact congrArg String.mk h)
    have hrev : ¬ (w.data.reverse.isEmpty = true) := by
      rw [List.isEmpty_iff, List.reverse_eq_nil_iff]
      exact hwdata
    cases tail with
    | nil =>
      show splitWsAux w.data [] = [w.data]
      have hch := splitWsAux_chain w.data [] [] (fun c hc => hw.2 c hc)
      rw [List.append_nil] at hch
      rw [hch, List.append_nil, splitWsAux_nil_eq, if_neg hrev,
        List.reverse_reverse]
    | cons v rest =>
      rw [sjoin_cons_cons]
      have hd : (w ++ " " ++ sjoin (v :: rest)).data =
          w.data ++ (' ' :: (sjoin (v :: rest)).data) := by
        show (w.data ++ [' ']) ++ (sjoin (v :: rest)).data =
          w.data ++ (' ' :: (sjoin (v :: rest)).data)
        rw [List.append_assoc]
        rfl
      rw [hd, splitWsAux_chain w.data _ [] (fun c hc => hw.2 c hc),
        List.append_nil, splitWsAux_cons_eq, if_pos (by decide : isWs ' ' = true),
        if_neg hrev, List.reverse_reverse,
        ih (by simp) (fun x hx => hgood x (List.mem_cons_of_mem w hx))]
      rfl

theorem pyWords_sjoin (ws : List String) (hne : ws ≠ [])
    (hgood : ∀ w ∈ ws, GoodWord w) : pyWords (sjoin ws) = ws := by
  unfold pyWords
  rw [splitWs_sjoin_data ws hne hgood, List.map_map]
  have hcomp : (String.mk ∘ String.data) = id := by
    funext s
    rfl
  rw [hcomp, List.map_id]

/-! ### Wrap idempotence (C5): line characterisation and rewrap -/

theorem wrapLoop_nil_eq (width : String → Nat) (m : Nat) (cur : String)
    (lines : List String) :
    wrapLoop width m [] cur lines =
      (if cur = "" then lines else lines ++ [cur]) := rfl

theorem wrapLoop_cons_eq (width : String → Nat) (m : Nat) (w : String)
    (ws : List String) (cur : String) (lines : List String) :
    wrapLoop width m (w :: ws) cur lines =
      (if width (if cur = "" then w else cur ++ " " ++ w) ≤ m then
        wrapLoop width m ws (if cur = "" then w else cur ++ " " ++ w) lines
      else if cur = "" then wrapLoop width m ws w lines
      else wrapLoop width m ws w (lines ++ [cur])) := rfl

theorem sjoin_snoc (w : String) :
    ∀ ws : List String, ws ≠ [] → sjoin (ws ++ [w]) = sjoin ws ++ " " ++ w := by
  intro ws
  induction ws with
  | nil => intro h; exact absurd rfl h
  | cons u tail ih =>
    intro _
    cases tail with
    | nil => rfl
    | cons v rest =>
      rw [List.cons_append, sjoin_cons_cons, List.cons_append,
        sjoin_cons_cons, ← List.cons_append, ih (by simp)]
      simp only [String.append_assoc]

theorem wrapLoop_isLine (width : String → Nat) (m : Nat) :
    ∀ (ws : List String) (cur : String) (lines : List String),
      (∀ w ∈ ws, GoodWord w) →
      (∀ l ∈ lines, IsLine width m l) →
      (cur = "" ∨ IsLine width m cur) →
      ∀ l ∈ wrapLoop width m ws cur lines, IsLine width m l := by
  intro ws
  induction ws with
  | nil =>
    intro cur lines _ hlines hcur l hl
    rw [wrapLoop_nil_eq] at hl
    by_cases hc : cur = ""
    · rw [if_pos hc] at hl; exact hlines l hl
    · rw [if_neg hc] at hl
      rcases List.mem_append.mp hl with h1 | h2
      · exact hlines l h1
      · rw [List.mem_singleton.mp h2]
        exact hcur.resolve_left hc
  | cons w ws ih =>
    intro cur lines hgood hlines hcur l hl
    have hgw : GoodWord w := hgood w (List.mem_cons_self w ws)
    have hgws : ∀ x ∈ ws, GoodWord x :=
      fun x hx => hgood x (List.mem_cons_of_mem w hx)
    rw [wrapLoop_cons_eq] at hl
    by_cases hfit : width (if cur = "" then w else cur ++ " " ++ w) ≤ m
    · rw [if_pos hfit] at hl
      refine ih _ _ hgws hlines (Or.inr ?_) l hl
      by_cases hc : cur = ""
      · rw [if_pos hc] at hfit ⊢
        exact ⟨[w], by simp, by simpa using hgw, rfl, Or.inl hfit⟩
      · rw [if_neg hc] at hfit ⊢
        obtain ⟨cws, hcne, hcgood, hceq, _⟩ := hcur.resolve_left hc
        refine ⟨cws ++ [w], by simp, ?_, ?_, Or.inl hfit⟩
        · intro x hx
          rcases List.mem_append.mp hx with h1 | h2
          · exact hcgood x h1
          · rw [List.mem_singleton.mp h2]; exact hgw
        · rw [sjoin_snoc w cws hcne, ← hceq]
    · rw [if_neg hfit] at hl
      by_cases hc : cur = ""
      · rw [if_pos hc] at hl
        exact ih _ _ hgws hlines
          (Or.inr ⟨[w], by simp, by simpa using hgw, rfl, Or.inr ⟨w, rfl⟩⟩)
          l hl
      · rw [if_neg hc] at hl
        refine ih _ _ hgws ?_
          (Or.inr ⟨[w], by simp, by simpa using hgw, rfl, Or.inr ⟨w, rfl⟩⟩)
          l hl
        intro x hx
        rcases List.mem_append.mp hx with h1 | h2
        · exact hlines x h1
        · rw [List.mem_singleton.mp h2]
          exact hcur.resolve_left hc

theorem wrap_paragraph_isLine (width : String → Nat) (m : Nat) (p : String) :
    ∀ l ∈ wrap_paragraph width m p, IsLine width m l :=
  fun l hl => wrapLoop_isLine width m (pyWords p) "" [] (pyWords_good p)
    (by simp) (Or.inl rfl) l hl

theorem wrapLoop_all_fit (width : String → Nat) (m : Nat)
    (hmono : WidthMono width) :
    ∀ (ws : List String) (cur : String) (lines : List String), cur ≠ "" →
      width (sjoin (cur :: ws)) ≤ m →
      wrapLoop width m ws cur lines = lines ++ [sjoin (cur :: ws)] := by
  intro ws
  induction ws with
  | nil =>
    intro cur lines hc hfit
    rw [wrapLoop_nil_eq, if_neg hc]
    rfl
  | cons w ws ih =>
    intro cur lines hc hfit
    have hts : sjoin ((cur ++ " " ++ w) :: ws) = sjoin (cur :: w :: ws) :=
      sjoin_glue cur w ws
    have htest : width (cur ++ " " ++ w) ≤ m := by
      cases ws with
      | nil => exact hfit
      | cons v rest =>
        refine le_trans ?_ hfit
        rw [← hts, sjoin_cons_cons]
        exact (hmono (cur ++ " " ++ w) (sjoin (v :: rest))).1
    rw [wrapLoop_cons_eq, if_neg hc, if_pos htest,
      ih (cur ++ " " ++ w) lines (append_space_ne_empty cur w)
        (by rw [hts]; exact hfit), hts]

theorem wrap_single_line (width : String → Nat) (m : Nat)
    (hmono : WidthMono width) (l : String) (hl : IsLine width m l) :
    wrap_paragraph width m l = [l] := by
  obtain ⟨ws, hne, hgood, hleq, hdis⟩ := hl
  subst hleq
  unfold wrap_paragraph
  rw [pyWords_sjoin ws hne hgood]
  cases ws with
  | nil => exact absurd rfl hne
  | cons w tail =>
    have hw := hgood w (List.mem_cons_self w tail)
    rw [wrapLoop_cons_eq, if_pos (rfl : ("" : String) = "")]
    rcases hdis with hfits | ⟨u, hu⟩
    · have hwfit : width w ≤ m := by
        cases tail with
        | nil => exact hfits
        | cons v rest =>
          refine le_trans ?_ hfits
          rw [sjoin_cons_cons]
          exact (hmono w (sjoin (v :: rest))).1
      rw [if_pos hwfit,
        wrapLoop_all_fit width m hmono tail w [] hw.1 hfits,
        List.nil_append]
    · have htail : tail = [] := (List.cons.injEq w tail u []).mp hu |>.2
      subst htail
      by_cases hwfit : width w ≤ m
      · rw [if_pos hwfit, wrapLoop_nil_eq, if_neg hw.1, List.nil_append]
        rfl
      · rw [if_neg hwfit, if_pos (rfl : ("" : String) = ""), wrapLoop_nil_eq,
          if_neg hw.1, List.nil_append]
        rfl

/-! ### Wrap idempotence (C5): newline and blank-line lemmas -/

theorem isLine_ne_empty (width : String → Nat) (m : Nat) (l : String)
    (hl : IsLine width m l) : l ≠ "" := by
  obtain ⟨ws, hne, hgood, hleq, _⟩ := hl
  subst hleq
  cases ws with
  | nil => exact absurd rfl hne
  | cons w tail =>
    exact sjoin_cons_ne_empty w tail (hgood w (List.mem_cons_self w tail)).1

theorem isLine_no_nl (width : String → Nat) (m : Nat) (l : String)
    (hl : IsLine width m l) : ∀ c ∈ l.data, c ≠ '\n' := by
  obtain ⟨ws, _, hgood, hleq, _⟩ := hl
  subst hleq
  intro c hc hnl
  rcases sjoin_chars ws c hc with h1 | ⟨w, hw, hcw⟩
  · rw [hnl] at h1
    exact absurd h1 (by decide)
  · have := (hgood w hw).2 c hcw
    rw [hnl] at this
    exact absurd this (by decide)

theorem pyStripChars_all_ws (cs : List Char)
    (h : ∀ c ∈ cs, isWs c = true) : pyStripChars cs = [] := by
  unfold pyStripChars
  rw [List.dropWhile_eq_nil_iff.mpr h]
  rfl

theorem pyStripChars_ne_nil (cs : List Char) (c : Char) (hc : c ∈ cs)
    (hws : isWs c = false) : pyStripChars cs ≠ [] := by
  intro hnil
  unfold pyStripChars at hnil
  rw [List.reverse_eq_nil_iff, List.dropWhile_eq_nil_iff] at hnil
  have hdrop : ∀ x ∈ cs.dropWhile isWs, isWs x = true := by
    intro x hx
    exact hnil x (List.mem_reverse.mpr hx)
  have hsplit := List.takeWhile_append_dropWhile isWs cs
  rcases List.mem_append.mp (hsplit ▸ hc) with h1 | h2
  · rw [List.mem_takeWhile_imp h1] at hws
    exact absurd hws (by simp)
  · rw [hdrop c h2] at hws
    exact absurd hws (by simp)

theorem isLine_not_blank (width : String → Nat) (m : Nat) (l : String)
    (hl : IsLine width m l) : pyIsBlank l = false := by
  obtain ⟨ws, hne, hgood, hleq, _⟩ := hl
  have hchar : ∃ c ∈ l.data, isWs c = false := by
    subst hleq
    cases ws with
    | nil => exact absurd rfl hne
    | cons w tail =>
      have hw := hgood w (List.mem_cons_self w tail)
      cases hd : w.data with
      | nil =>
        exact absurd (by cases w with | mk d => exact congrArg String.mk hd)
          hw.1
      | cons c crest =>
        refine ⟨c, mem_sjoin_chars (w :: tail) w c
          (List.mem_cons_self w tail) (by rw [hd]; simp), ?_⟩
        exact hw.2 c (by rw [hd]; simp)
  obtain ⟨c, hcl, hcws⟩ := hchar
  unfold pyIsBlank
  rw [decide_eq_false_iff_not]
  intro hblank
  have : pyStripChars l.data = [] := congrArg String.data hblank
  exact pyStripChars_ne_nil l.data c hcl hcws this

theorem splitNl_ne_nil : ∀ cs : List Char, splitNl cs ≠ [] := by
  intro cs
  induction cs with
  | nil => simp [splitNl]
  | cons c rest ih =>
    unfold splitNl
    by_cases hc : c = '\n'
    · rw [if_pos hc]; simp
    · rw [if_neg hc]
      cases hsp : splitNl rest with
      | nil => exact absurd hsp ih
      | cons p ps => simp

theorem splitNl_no_nl (cs : List Char) (h : ∀ c ∈ cs, c ≠ '\n') :
    splitNl cs = [cs] := by
  induction cs with
  | nil => rfl
  | cons c rest ih =>
    unfold splitNl
    rw [if_neg (h c (List.mem_cons_self c rest))]
    rw [ih (fun x hx => h x (List.mem_cons_of_mem c hx))]

theorem splitNl_nl_cons (cs : List Char) :
    splitNl ('\n' :: cs) = [] :: splitNl cs := by
  simp [splitNl]

theorem splitNl_cons_ne (c : Char) (cs : List Char) (h : c ≠ '\n') :
    splitNl (c :: cs) =
      (match splitNl cs with
       | [] => [[c]]
       | p :: ps => (c :: p) :: ps) := by
  simp only [splitNl]
  rw [if_neg h]

theorem splitNl_append (cs : List Char) (rest : List Char)
    (h : ∀ c ∈ cs, c ≠ '\n') :
    splitNl (cs ++ '\n' :: rest) = cs :: splitNl rest := by
  induction cs with
  | nil =>
    show splitNl ('\n' :: rest) = [] :: splitNl rest
    exact splitNl_nl_cons rest
  | cons c cs ih =>
    show splitNl (c :: (cs ++ '\n' :: rest)) = _
    rw [splitNl_cons_ne c _ (h c (List.mem_cons_self c cs)),
      ih (fun x hx => h x (List.mem_cons_of_mem c hx))]

theorem joinNl_cons_cons (a b : List Char) (rest : List (List Char)) :
    joinNl (a :: b :: rest) = a ++ '\n' :: joinNl (b :: rest) := rfl

theorem splitNl_joinNl (css : List (List Char)) (hne : css ≠ [])
    (hnl : ∀ cs ∈ css, ∀ c ∈ cs, c ≠ '\n') :
    splitNl (joinNl css) = css := by
  induction css with
  | nil => exact absurd rfl hne
  | cons cs tail ih =>
    cases tail with
    | nil =>
      show splitNl cs = [cs]
      exact splitNl_no_nl cs (hnl cs (List.mem_cons_self cs []))
    | cons b rest =>
      rw [joinNl_cons_cons,
        splitNl_append cs _ (hnl cs (List.mem_cons_self cs _)),
        ih (by simp) (fun x hx => hnl x (List.mem_cons_of_mem cs hx))]

theorem splitNl_len_two (cs : List Char) (h : '\n' ∈ cs) :
    2 ≤ (splitNl cs).length := by
  induction cs with
  | nil => exact absurd h (List.not_mem_nil _)
  | cons c rest ih =>
    unfold splitNl
    by_cases hc : c = '\n'
    · rw [if_pos hc]
      have := splitNl_ne_nil rest
      cases hsp : splitNl rest with
      | nil => exact absurd hsp this
      | cons p ps => simp
    · rw [if_neg hc]
      have hmem : '\n' ∈ rest := by
        rcases List.mem_cons.mp h with h1 | h2
        · exact absurd h1.symm hc
        · exact h2
      have hlen := ih hmem
      cases hsp : splitNl rest with
      | nil => exact absurd hsp (splitNl_ne_nil rest)
      | cons p ps =>
        rw [hsp] at hlen
        simpa using hlen

theorem flatMap_eq_self {α : Type} (L : List α) (f : α → List α)
    (h : ∀ x ∈ L, f x = [x]) : L.flatMap f = L := by
  induction L with
  | nil => rfl
  | cons x xs ih =>
    rw [List.flatMap_cons, h x (List.mem_cons_self x xs),
      ih (fun y hy => h y (List.mem_cons_of_mem x hy))]
    rfl

theorem flatMap_len_ge {α β : Type} (xs : List α) (f : α → List β)
    (h : ∀ x ∈ xs, f x ≠ []) : xs.length ≤ (xs.flatMap f).length := by
  induction xs with
  | nil => simp
  | cons x a ih =>
    rw [List.flatMap_cons, List.length_append, List.length_cons]
    have h1 : 1 ≤ (f x).length := by
      cases hfx : f x with
      | nil => exact absurd hfx (h x (List.mem_cons_self x a))
      | cons y ys => simp
    have h2 := ih (fun y hy => h y (List.mem_cons_of_mem x hy))
    omega

theorem wrapLoop_ne_nil (width : String → Nat) (m : Nat) :
    ∀ (ws : List String) (cur : String) (lines : List String),
      (∀ w ∈ ws, w ≠ "") → (cur ≠ "" ∨ ws ≠ []) →
      wrapLoop width m ws cur lines ≠ [] := by
  intro ws
  induction ws with
  | nil =>
    intro cur lines _ hor
    have hc : cur ≠ "" := hor.resolve_right (fun h => h rfl)
    rw [wrapLoop_nil_eq, if_neg hc]
    simp
  | cons w ws ih =>
    intro cur lines hws _
    have hw : w ≠ "" := hws w (List.mem_cons_self w ws)
    have hws' : ∀ x ∈ ws, x ≠ "" := fun x hx => hws x (List.mem_cons_of_mem w hx)
    rw [wrapLoop_cons_eq]
    by_cases hfit : width (if cur = "" then w else cur ++ " " ++ w) ≤ m
    · rw [if_pos hfit]
      refine ih _ _ hws' (Or.inl ?_)
      by_cases hc : cur = ""
      · rw [if_pos hc]; exact hw
      · rw [if_neg hc]; exact append_space_ne_empty cur w
    · rw [if_neg hfit]
      by_cases hc : cur = ""
      · rw [if_pos hc]; exact ih _ _ hws' (Or.inl hw)
      · rw [if_neg hc]; exact ih _ _ hws' (Or.inl hw)

theorem splitWsAux_acc_ne (cs : List Char) :
    ∀ acc : List Char, acc ≠ [] → splitWsAux cs acc ≠ [] := by
  induction cs with
  | nil =>
    intro acc hacc
    rw [splitWsAux_nil_eq, if_neg (by rw [List.isEmpty_iff]; exact hacc)]
    simp
  | cons c rest ih =>
    intro acc hacc
    rw [splitWsAux_cons_eq]
    by_cases hc : isWs c
    · rw [if_pos hc, if_neg (by rw [List.isEmpty_iff]; exact hacc)]
      simp
    · rw [if_neg hc]
      exact ih (c :: acc) (by simp)

theorem splitWsAux_ne_nil (cs : List Char) :
    ∀ acc : List Char, (∃ c ∈ cs, isWs c = false) →
      splitWsAux cs acc ≠ [] := by
  induction cs with
  | nil =>
    intro acc ⟨c, hc, _⟩
    exact absurd hc (List.not_mem_nil c)
  | cons c rest ih =>
    intro acc ⟨x, hx, hxws⟩
    rw [splitWsAux_cons_eq]
    by_cases hc : isWs c
    · have hxr : x ∈ rest := by
        rcases List.mem_cons.mp hx with h1 | h2
        · rw [h1] at hxws
          rw [hxws] at hc
          exact absurd hc (by simp)
        · exact h2
      rw [if_pos hc]
      by_cases he : acc.isEmpty
      · rw [if_pos he]; exact ih [] ⟨x, hxr, hxws⟩
      · rw [if_neg he]; simp
    · rw [if_neg hc]
      exact splitWsAux_acc_ne rest (c :: acc) (by simp)

theorem wrap_paragraph_ne_nil (width : String → Nat) (m : Nat) (p : String)
    (h : pyIsBlank p = false) : wrap_paragraph width m p ≠ [] := by
  have hchar : ∃ c ∈ p.data, isWs c = false := by
    by_contra hall
    push_neg at hall
    have hws : ∀ c ∈ p.data, isWs c = true := by
      intro c hc
      have := hall c hc
      cases hv : isWs c
      · exact absurd hv this
      · rfl
    have : pyIsBlank p = true := by
      unfold pyIsBlank
      rw [decide_eq_true_iff]
      unfold pyStrip
      rw [pyStripChars_all_ws p.data hws]
    rw [this] at h
    exact absurd h (by simp)
  have hwords : pyWords p ≠ [] := by
    unfold pyWords
    intro hmap
    exact splitWsAux_ne_nil p.data [] hchar (List.map_eq_nil_iff.mp hmap)
  unfold wrap_paragraph
  cases hpw : pyWords p with
  | nil => exact absurd hpw hwords
  | cons w ws =>
    refine wrapLoop_ne_nil width m (w :: ws) "" [] ?_ (Or.inr (by simp))
    intro x hx
    rw [← hpw] at hx
    exact (pyWords_good p x hx).1

/-! ### Wrap idempotence (C5): main development -/

theorem hasNl_eq_false (s : String) (h : ∀ c ∈ s.data, c ≠ '\n') :
    hasNl s = false := by
  unfold hasNl
  rw [List.any_eq_false]
  intro c hc
  simpa using h c hc

theorem joinLines_cons_cons_hasNl (l1 l2 : String) (rest : List String) :
    hasNl (joinLines (l1 :: l2 :: rest)) = true := by
  unfold hasNl
  rw [List.any_eq_true]
  refine ⟨'\n', ?_, by simp⟩
  show '\n' ∈ joinNl ((l1 :: l2 :: rest).map String.data)
  rw [List.map_cons, List.map_cons, joinNl_cons_cons]
  exact List.mem_append_right _ (List.mem_cons_self _ _)

theorem wrap_text_with_newlines_id (width : String → Nat) (m : Nat)
    (hmono : WidthMono width) (L : List String) (hne : L ≠ [])
    (hlines : ∀ l ∈ L, l = "" ∨ IsLine width m l) :
    wrap_text_with_newlines width m (joinLines L) = L := by
  unfold wrap_text_with_newlines
  have hdata : (joinLines L).data = joinNl (L.map String.data) := rfl
  rw [hdata, splitNl_joinNl (L.map String.data) (by simpa using hne)
    (by
      intro cs hcs c hc
      rcases List.mem_map.mp hcs with ⟨l, hl, hld⟩
      subst hld
      rcases hlines l hl with h1 | h2
      · rw [h1] at hc; exact absurd hc (List.not_mem_nil c)
      · exact isLine_no_nl width m l h2 c hc)]
  rw [List.flatMap_map]
  refine flatMap_eq_self L _ ?_
  intro l hl
  show (if pyIsBlank l then [""] else wrap_paragraph width m l) = [l]
  rcases hlines l hl with h1 | h2
  · subst h1
    rw [if_pos (by decide : pyIsBlank "" = true)]
  · rw [if_neg (by
      rw [isLine_not_blank width m l h2]
      exact Bool.false_ne_true)]
    exact wrap_single_line width m hmono l h2

theorem wrap_text_lines (width : String → Nat) (m N : Nat) (text : String) :
    ∀ l ∈ wrap_text width m N text, l = "" ∨ IsLine width m l := by
  intro l hl
  unfold wrap_text at hl
  have hl' := List.mem_of_mem_take hl
  by_cases hnl : hasNl text
  · rw [if_pos hnl] at hl'
    unfold wrap_text_with_newlines at hl'
    rcases List.mem_flatMap.mp hl' with ⟨p, hp, hmem⟩
    by_cases hb : pyIsBlank ⟨p⟩
    · rw [if_pos hb] at hmem
      exact Or.inl (List.mem_singleton.mp hmem)
    · rw [if_neg hb] at hmem
      exact Or.inr (wrap_paragraph_isLine width m ⟨p⟩ l hmem)
  · rw [if_neg hnl] at hl'
    exact Or.inr (wrap_paragraph_isLine width m text l hl')

/-- **C5.** Wrap idempotence: joining the lines returned by `wrap_text` with
newlines and wrapping the result again at the same width, measure and line cap
(at least 2, as the generator's cap of 4 is) returns exactly the same lines. -/
theorem wrap_text_idempotent (width : String → Nat) (hmono : WidthMono width)
    (max_width max_lines : Nat) (h2 : 2 ≤ max_lines) (text : String) :
    wrap_text width max_width max_lines
        (joinLines (wrap_text width max_width max_lines text)) =
      wrap_text width max_width max_lines text := by
  have hlines := wrap_text_lines width max_width max_lines text
  have hlen : (wrap_text width max_width max_lines text).length ≤ max_lines := by
    unfold wrap_text
    exact List.length_take_le _ _
  cases hL : wrap_text width max_width max_lines text with
  | nil =>
    show wrap_text width max_width max_lines (joinLines []) = []
    have hpar : wrap_paragraph width max_width "" = [] := rfl
    show wrap_text width max_width max_lines "" = []
    unfold wrap_text
    rw [if_neg (by decide : ¬ hasNl "" = true), hpar, List.take_nil]
  | cons l1 tail =>
    cases tail with
    | nil =>
      have hl1 : IsLine width max_width l1 := by
        rcases hlines l1 (by rw [hL]; exact List.mem_cons_self l1 []) with
          h1 | h2
        · exfalso
          by_cases hnl : hasNl text
          · have hnlmem : '\n' ∈ text.data := by
              unfold hasNl at hnl
              rcases List.any_eq_true.mp hnl with ⟨c, hc, hceq⟩
              have : c = '\n' := by simpa using hceq
              rw [← this]
              exact hc
            have hflat : 2 ≤ ((splitNl text.data).flatMap
                (fun p => if pyIsBlank ⟨p⟩ then [""]
                  else wrap_paragraph width max_width ⟨p⟩)).length := by
              refine le_trans (splitNl_len_two text.data hnlmem)
                (flatMap_len_ge _ _ ?_)
              intro p hp
              by_cases hb : pyIsBlank ⟨p⟩
              · rw [if_pos hb]; simp
              · rw [if_neg hb]
                exact wrap_paragraph_ne_nil width max_width ⟨p⟩
                  (Bool.eq_false_iff.mpr hb)
            have hlen1 : (wrap_text width max_width max_lines text).length = 1 := by
              rw [hL]
              rfl
            unfold wrap_text at hlen1
            rw [if_pos hnl] at hlen1
            unfold wrap_text_with_newlines at hlen1
            rw [List.length_take] at hlen1
            have hmin := le_min h2 hflat
            rw [hlen1] at hmin
            omega
          · have hmem : l1 ∈ wrap_paragraph width max_width text := by
              have hmem0 : l1 ∈ wrap_text width max_width max_lines text := by
                rw [hL]
                exact List.mem_cons_self l1 []
              unfold wrap_text at hmem0
              rw [if_neg hnl] at hmem0
              exact List.mem_of_mem_take hmem0
            exact isLine_ne_empty width max_width l1
              (wrap_paragraph_isLine width max_width text l1 hmem) h1
        · exact h2
      show wrap_text width max_width max_lines (joinLines [l1]) = [l1]
      have hjoin : joinLines [l1] = l1 := rfl
      rw [hjoin]
      unfold wrap_text
      rw [if_neg (by
        rw [hasNl_eq_false l1 (isLine_no_nl width max_width l1 hl1)]
        exact Bool.false_ne_true)]
      rw [wrap_single_line width max_width hmono l1 hl1]
      refine List.take_of_length_le ?_
      simp only [List.length_singleton]
      omega
    | cons l2 rest =>
      show wrap_text width max_width max_lines
          (joinLines (l1 :: l2 :: rest)) = l1 :: l2 :: rest
      unfold wrap_text
      rw [if_pos (joinLines_cons_cons_hasNl l1 l2 rest)]
      rw [wrap_text_with_newlines_id width max_width hmono (l1 :: l2 :: rest)
        (by simp) (by rw [← hL]; exact hlines)]
      refine List.take_of_length_le ?_
      rw [← hL]
      exact hlen

/-- **C5 witness.** A concrete instance under the character-count measure:
wrapping `"aa bb\n\ncc"` at width 5 with the default cap 4 gives
`["aa bb", "", "cc"]`, and rewrapping their newline-join reproduces them. -/
theorem wrap_text_idempotent_witness :
    wrap_text String.length 5 4
        (joinLines (wrap_text String.length 5 4 "aa bb\n\ncc")) =
      wrap_text String.length 5 4 "aa bb\n\ncc" :=
  wrap_text_idempotent String.length lengthMono 5 4 (by omega) "aa bb\n\ncc"
